import Mathlib

/-!
Verification of the avici-internal-dashboard backend (sync + enrichment services).

The JavaScript sources are shallowly embedded as Lean functions:
strings are modelled as `String` (IP addresses, which the code inspects
character by character through anchored regexes, as `List Char`), nullable
values as `Option`, thrown exceptions as explicit error results, and the
external world (upstream feed, geolocation API, Supabase store) as explicit
oracles passed to the functions.  Timestamps are naturals (milliseconds).
-/

namespace Avici

/-! ## IP classifier (`enrichment-service.js`, `isPrivateIP`)

The JS function tests the anchored regexes `^10\.`, `^172\.(1[6-9]|2[0-9]|3[0-1])\.`,
`^192\.168\.`, `^127\.`, `^169\.254\.`, `^0\.` against the IP string and
returns `true` for a missing/empty (falsy) argument.  An anchored literal
regex is a prefix test on the character sequence, and the second-octet
alternation of the `172` range is the set of the 16 prefixes
`172.16.` … `172.31.`. -/

/-- Decimal digit characters of a natural number, most significant first. -/
def digitsOf (n : Nat) : List Char := Nat.toDigits 10 n

/-- The character sequence of the dotted-quad rendering `a.b.c.d`. -/
def ipStr (a b c d : Nat) : List Char :=
  digitsOf a ++ '.' :: (digitsOf b ++ '.' :: (digitsOf c ++ '.' :: digitsOf d))

/-- Anchored-literal regex test: the pattern is a prefix of the subject. -/
def startsWith (p s : List Char) : Bool := List.isPrefixOf p s

/-- The 16 prefixes matched by `^172\.(1[6-9]|2[0-9]|3[0-1])\.`. -/
def oct172 : List (List Char) :=
  (List.range 16).map (fun k => '1' :: '7' :: '2' :: '.' :: (digitsOf (16 + k) ++ ['.']))

/-- `isPrivateIP(ip)` from `enrichment-service.js`: `true` for a falsy
argument (absent or empty string), otherwise whether one of the six
anchored private-range regexes matches. -/
def isPrivateIP : Option (List Char) → Bool
  | none => true
  | some ip =>
    if ip.isEmpty then true
    else
      startsWith ['1', '0', '.'] ip
      || oct172.any (fun p => startsWith p ip)
      || startsWith ['1', '9', '2', '.', '1', '6', '8', '.'] ip
      || startsWith ['1', '2', '7', '.'] ip
      || startsWith ['1', '6', '9', '.', '2', '5', '4', '.'] ip
      || startsWith ['0', '.'] ip

theorem isPrefixOf_append_self (p t : List Char) : List.isPrefixOf p (p ++ t) = true := by
  induction p with
  | nil => simp [List.isPrefixOf]
  | cons a as ih => simp [List.isPrefixOf, ih]

theorem priv_block10 (b c d : Nat) : isPrivateIP (some (ipStr 10 b c d)) = true := by
  have h10 : digitsOf 10 = ['1', '0'] := by decide
  have hs : ipStr 10 b c d
      = ['1', '0', '.'] ++ (digitsOf b ++ '.' :: (digitsOf c ++ '.' :: digitsOf d)) := by
    simp [ipStr, h10]
  rw [hs]
  simp only [isPrivateIP, List.isEmpty_eq_true, List.append_eq_nil, startsWith]
  rw [if_neg (by simp)]
  simp [isPrefixOf_append_self]

theorem priv172_of_mem (o c d : Nat)
    (hm : ('1' :: '7' :: '2' :: '.' :: (digitsOf o ++ ['.'])) ∈ oct172) :
    isPrivateIP (some (ipStr 172 o c d)) = true := by
  have h172 : digitsOf 172 = ['1', '7', '2'] := by decide
  have hs : ipStr 172 o c d
      = ('1' :: '7' :: '2' :: '.' :: (digitsOf o ++ ['.']))
          ++ (digitsOf c ++ '.' :: digitsOf d) := by
    simp [ipStr, h172]
  rw [hs]
  simp only [isPrivateIP, startsWith]
  rw [if_neg (by simp)]
  apply Bool.or_eq_true_iff.mpr
  left
  apply Bool.or_eq_true_iff.mpr
  left
  apply Bool.or_eq_true_iff.mpr
  left
  apply Bool.or_eq_true_iff.mpr
  left
  apply Bool.or_eq_true_iff.mpr
  right
  rw [List.any_eq_true]
  exact ⟨_, hm, isPrefixOf_append_self _ _⟩

theorem priv_block172 (b c d : Nat) (hb1 : 16 ≤ b) (hb2 : b ≤ 31) :
    isPrivateIP (some (ipStr 172 b c d)) = true := by
  interval_cases b <;> exact priv172_of_mem _ c d (by decide)

theorem priv_block192168 (c d : Nat) : isPrivateIP (some (ipStr 192 168 c d)) = true := by
  have h1 : digitsOf 192 = ['1', '9', '2'] := by decide
  have h2 : digitsOf 168 = ['1', '6', '8'] := by decide
  have hs : ipStr 192 168 c d
      = ['1', '9', '2', '.', '1', '6', '8', '.'] ++ (digitsOf c ++ '.' :: digitsOf d) := by
    simp [ipStr, h1, h2]
  rw [hs]
  simp only [isPrivateIP, startsWith]
  rw [if_neg (by simp)]
  simp [isPrefixOf_append_self]

theorem priv_block127 (b c d : Nat) : isPrivateIP (some (ipStr 127 b c d)) = true := by
  have h1 : digitsOf 127 = ['1', '2', '7'] := by decide
  have hs : ipStr 127 b c d
      = ['1', '2', '7', '.'] ++ (digitsOf b ++ '.' :: (digitsOf c ++ '.' :: digitsOf d)) := by
    simp [ipStr, h1]
  rw [hs]
  simp only [isPrivateIP, startsWith]
  rw [if_neg (by simp)]
  simp [isPrefixOf_append_self]

theorem priv_block169254 (c d : Nat) : isPrivateIP (some (ipStr 169 254 c d)) = true := by
  have h1 : digitsOf 169 = ['1', '6', '9'] := by decide
  have h2 : digitsOf 254 = ['2', '5', '4'] := by decide
  have hs : ipStr 169 254 c d
      = ['1', '6', '9', '.', '2', '5', '4', '.'] ++ (digitsOf c ++ '.' :: digitsOf d) := by
    simp [ipStr, h1, h2]
  rw [hs]
  simp only [isPrivateIP, startsWith]
  rw [if_neg (by simp)]
  simp [isPrefixOf_append_self]

theorem priv_block0 (b c d : Nat) : isPrivateIP (some (ipStr 0 b c d)) = true := by
  have h1 : digitsOf 0 = ['0'] := by decide
  have hs : ipStr 0 b c d
      = ['0', '.'] ++ (digitsOf b ++ '.' :: (digitsOf c ++ '.' :: digitsOf d)) := by
    simp [ipStr, h1]
  rw [hs]
  simp only [isPrivateIP, startsWith]
  rw [if_neg (by simp)]
  simp [isPrefixOf_append_self]

/-! ## Geolocation lookup (`enrichment-service.js`, `fetchGeolocationData`)

The `location` object of the geolocation response, with the five sub-fields
the service reads.  The axios call either resolves with a payload or fails
(response / network / local error); every failure path of the JS function
logs and returns `null`.  The returned `Bool` records whether an API lookup
was performed. -/

structure GeoLocation where
  country_name_official : Option String
  state_prov : Option String
  city : Option String
  district : Option String
  country_code2 : Option String
deriving DecidableEq, Repr

structure GeoData where
  location : Option GeoLocation
deriving DecidableEq, Repr

inductive GeoApiResult
  | resolved (data : GeoData)
  | failed
deriving DecidableEq, Repr

/-- JS truthiness of a possibly-absent IP string: `null`/`undefined` and the
empty string are falsy. -/
def truthyIp : Option (List Char) → Bool
  | none => false
  | some l => !l.isEmpty

/-- `fetchGeolocationData(ipAddress)`: skip (no lookup, `null` result) when
the IP is falsy or classified private; otherwise perform the lookup, with
any axios failure logged and turned into `null`. -/
def fetchGeolocationData (api : GeoApiResult) (ip : Option (List Char)) :
    Option GeoData × Bool :=
  if !truthyIp ip || isPrivateIP ip then (none, false)
  else
    match api with
    | .resolved d => (some d, true)
    | .failed => (none, true)

theorem fetchGeolocationData_skips_private (api : GeoApiResult) (ip : Option (List Char))
    (h : isPrivateIP ip = true) : fetchGeolocationData api ip = (none, false) := by
  simp [fetchGeolocationData, h]

/-- C8: `isPrivateIP` accepts every address of the six reserved blocks and an
absent IP (in particular the five listed sample addresses), rejects `8.8.8.8`
and `1.1.1.1`, and `fetchGeolocationData` performs no API lookup and returns
null for a private/invalid address. -/
theorem C8_isPrivateIP_blocks :
    (∀ b c d : Nat, isPrivateIP (some (ipStr 10 b c d)) = true)
    ∧ (∀ b c d : Nat, 16 ≤ b → b ≤ 31 → isPrivateIP (some (ipStr 172 b c d)) = true)
    ∧ (∀ c d : Nat, isPrivateIP (some (ipStr 192 168 c d)) = true)
    ∧ (∀ b c d : Nat, isPrivateIP (some (ipStr 127 b c d)) = true)
    ∧ (∀ c d : Nat, isPrivateIP (some (ipStr 169 254 c d)) = true)
    ∧ (∀ b c d : Nat, isPrivateIP (some (ipStr 0 b c d)) = true)
    ∧ isPrivateIP none = true
    ∧ isPrivateIP (some (ipStr 10 0 0 1)) = true
    ∧ isPrivateIP (some (ipStr 192 168 1 1)) = true
    ∧ isPrivateIP (some (ipStr 127 0 0 1)) = true
    ∧ isPrivateIP (some (ipStr 169 254 1 1)) = true
    ∧ isPrivateIP (some (ipStr 0 0 0 1)) = true
    ∧ isPrivateIP (some (ipStr 8 8 8 8)) = false
    ∧ isPrivateIP (some (ipStr 1 1 1 1)) = false
    ∧ (∀ (api : GeoApiResult) (ip : Option (List Char)),
        isPrivateIP ip = true → fetchGeolocationData api ip = (none, false)) :=
  ⟨priv_block10, priv_block172, priv_block192168, priv_block127, priv_block169254,
   priv_block0, by decide, by decide, by decide, by decide, by decide, by decide,
   by decide, by decide, fetchGeolocationData_skips_private⟩

/-- Closed witness for `C8_isPrivateIP_blocks` at concrete inputs, discharging
each hypothesis. -/
theorem C8_isPrivateIP_blocks_witness :
    isPrivateIP (some (ipStr 10 1 2 3)) = true
    ∧ isPrivateIP (some (ipStr 172 31 2 3)) = true
    ∧ fetchGeolocationData GeoApiResult.failed (some (ipStr 127 0 0 1)) = (none, false) :=
  ⟨C8_isPrivateIP_blocks.1 1 2 3,
   C8_isPrivateIP_blocks.2.1 31 2 3 (by decide) (by decide),
   C8_isPrivateIP_blocks.2.2.2.2.2.2.2.2.2.2.2.2.2.2 GeoApiResult.failed _
     (C8_isPrivateIP_blocks.2.2.2.1 0 0 1)⟩

/-! ## Record enrichment (`enrichment-service.js`, `enrichUser`)

`enrichUser(userId, geolocationData)` builds an `updates` object from the
truthy fields of `geolocationData.location`, re-reads the record's five
enrichment columns, keeps only the updates whose stored column is falsy
(`finalUpdates`), and issues a store update for those keys.  The stored
columns are modelled as `Option String` (`none` = SQL `NULL`); the function
below returns the resulting stored columns together with the JS return
value. -/

structure UserCols where
  country_name_official : Option String
  state : Option String
  city : Option String
  district : Option String
  country_code : Option String
deriving DecidableEq, Repr

/-- JS truthiness of a nullable string column: `null` and `""` are falsy. -/
def truthy : Option String → Bool
  | none => false
  | some s => !(s == "")

/-- One field of the `updates` object: present iff the API value is truthy. -/
def candCol (o : Option String) : Option String := if truthy o then o else none

/-- One field of `finalUpdates`: kept iff the update is truthy and the
currently stored column is falsy. -/
def finCol (u c : Option String) : Option String := if truthy u && !truthy c then u else none

/-- Applying one field of the store update: a present key overwrites. -/
def mergeCol (f c : Option String) : Option String :=
  match f with
  | some v => some v
  | none => c

def emptyCols : UserCols := ⟨none, none, none, none, none⟩

def buildUpdates (loc : GeoLocation) : UserCols :=
  ⟨candCol loc.country_name_official, candCol loc.state_prov, candCol loc.city,
   candCol loc.district, candCol loc.country_code2⟩

def buildFinal (u cur : UserCols) : UserCols :=
  ⟨finCol u.country_name_official cur.country_name_official, finCol u.state cur.state,
   finCol u.city cur.city, finCol u.district cur.district,
   finCol u.country_code cur.country_code⟩

def applyUpdates (f cur : UserCols) : UserCols :=
  ⟨mergeCol f.country_name_official cur.country_name_official, mergeCol f.state cur.state,
   mergeCol f.city cur.city, mergeCol f.district cur.district,
   mergeCol f.country_code cur.country_code⟩

/-- `enrichUser`: result is the stored columns after the call and the JS
return value (`true` iff a store update was issued). -/
def enrichUser (geo : Option GeoData) (cur : UserCols) : UserCols × Bool :=
  match geo with
  | none => (cur, false)
  | some g =>
    match g.location with
    | none => (cur, false)
    | some loc =>
      if buildUpdates loc = emptyCols then (cur, false)
      else if buildFinal (buildUpdates loc) cur = emptyCols then (cur, false)
      else (applyUpdates (buildFinal (buildUpdates loc) cur) cur, true)

/-- The `location` object seen by `enrichUser`, defaulting to all-absent. -/
def locOf (geo : Option GeoData) : GeoLocation :=
  (geo.bind GeoData.location).getD ⟨none, none, none, none, none⟩

theorem mergeCol_finCol_candCol (o c : Option String) :
    mergeCol (finCol (candCol o) c) c = if truthy o && !truthy c then o else c := by
  by_cases ho : truthy o = true
  · by_cases hc : truthy c = true
    · simp [candCol, finCol, mergeCol, ho, hc]
    · cases o with
      | none => simp [truthy] at ho
      | some s => simp [candCol, finCol, mergeCol, ho, hc]
  · simp [candCol, finCol, mergeCol, Bool.not_eq_true] at ho ⊢
    simp [ho]

theorem candCol_eq_none (o : Option String) (h : candCol o = none) : truthy o = false := by
  by_cases ho : truthy o = true
  · rw [candCol, if_pos ho] at h
    rw [h] at ho
    simp [truthy] at ho
  · simpa using ho

theorem mergeCol_of_finCol_none (u c : Option String) (h : finCol u c = none) :
    mergeCol (finCol u c) c = c := by rw [h, mergeCol]

theorem applyUpdates_of_updates_empty (l : GeoLocation) (cur : UserCols)
    (h : buildUpdates l = emptyCols) :
    applyUpdates (buildFinal (buildUpdates l) cur) cur = cur := by
  rw [h]
  simp [emptyCols, buildFinal, finCol, truthy, applyUpdates, mergeCol]

theorem applyUpdates_of_final_empty (u : UserCols) (cur : UserCols)
    (h : buildFinal u cur = emptyCols) :
    applyUpdates (buildFinal u cur) cur = cur := by
  rw [h]
  simp [emptyCols, applyUpdates, mergeCol]

/-- The stored columns after `enrichUser` are, in every branch, the result of
field-wise candidate-building, null-filtering and merging. -/
theorem enrichUser_fst_eq (geo : Option GeoData) (cur : UserCols) :
    (enrichUser geo cur).1 = applyUpdates (buildFinal (buildUpdates (locOf geo)) cur) cur := by
  cases geo with
  | none =>
    have h : buildUpdates (locOf (none : Option GeoData)) = emptyCols := by
      simp [locOf, buildUpdates, candCol, truthy, emptyCols]
    rw [enrichUser, applyUpdates_of_updates_empty _ _ h]
  | some g =>
    cases g with
    | mk loc? =>
      cases loc? with
      | none =>
        have h : buildUpdates (locOf (some ⟨none⟩)) = emptyCols := by
          simp [locOf, buildUpdates, candCol, truthy, emptyCols]
        rw [show enrichUser (some ⟨none⟩) cur = (cur, false) from rfl,
            applyUpdates_of_updates_empty _ _ h]
      | some loc =>
        have hloc : locOf (some ⟨some loc⟩) = loc := rfl
        rw [hloc]
        by_cases h1 : buildUpdates loc = emptyCols
        · rw [show enrichUser (some ⟨some loc⟩) cur
              = (if buildUpdates loc = emptyCols then (cur, false)
                 else if buildFinal (buildUpdates loc) cur = emptyCols then (cur, false)
                 else (applyUpdates (buildFinal (buildUpdates loc) cur) cur, true)) from rfl]
          rw [if_pos h1, applyUpdates_of_updates_empty _ _ h1]
        · by_cases h2 : buildFinal (buildUpdates loc) cur = emptyCols
          · rw [show enrichUser (some ⟨some loc⟩) cur
                = (if buildUpdates loc = emptyCols then (cur, false)
                   else if buildFinal (buildUpdates loc) cur = emptyCols then (cur, false)
                   else (applyUpdates (buildFinal (buildUpdates loc) cur) cur, true)) from rfl]
            rw [if_neg h1, if_pos h2, applyUpdates_of_final_empty _ _ h2]
          · rw [show enrichUser (some ⟨some loc⟩) cur
                = (if buildUpdates loc = emptyCols then (cur, false)
                   else if buildFinal (buildUpdates loc) cur = emptyCols then (cur, false)
                   else (applyUpdates (buildFinal (buildUpdates loc) cur) cur, true)) from rfl]
            rw [if_neg h1, if_neg h2]

theorem fwwCol (o c : Option String) :
    (truthy c = true → (if truthy o && !truthy c then o else c) = c)
    ∧ ((if truthy o && !truthy c then o else c) ≠ c →
        truthy o = true ∧ truthy c = false
        ∧ (if truthy o && !truthy c then o else c) = o) := by
  constructor
  · intro hc; simp [hc]
  · intro hne
    by_cases h : (truthy o && !truthy c) = true
    · have h' : truthy o = true ∧ !truthy c = true := by simpa using h
      exact ⟨h'.1, by simpa using h'.2, by simp [h]⟩
    · exact absurd (by simp [h]) hne

theorem enrichUser_cno_eq (geo : Option GeoData) (cur : UserCols) :
    (enrichUser geo cur).1.country_name_official
      = if truthy (locOf geo).country_name_official && !truthy cur.country_name_official
        then (locOf geo).country_name_official else cur.country_name_official := by
  rw [enrichUser_fst_eq]
  rw [show (applyUpdates (buildFinal (buildUpdates (locOf geo)) cur) cur).country_name_official
      = mergeCol (finCol (candCol (locOf geo).country_name_official)
          cur.country_name_official) cur.country_name_official from rfl]
  rw [mergeCol_finCol_candCol]

theorem enrichUser_state_eq (geo : Option GeoData) (cur : UserCols) :
    (enrichUser geo cur).1.state
      = if truthy (locOf geo).state_prov && !truthy cur.state
        then (locOf geo).state_prov else cur.state := by
  rw [enrichUser_fst_eq]
  rw [show (applyUpdates (buildFinal (buildUpdates (locOf geo)) cur) cur).state
      = mergeCol (finCol (candCol (locOf geo).state_prov) cur.state) cur.state from rfl]
  rw [mergeCol_finCol_candCol]

theorem enrichUser_city_eq (geo : Option GeoData) (cur : UserCols) :
    (enrichUser geo cur).1.city
      = if truthy (locOf geo).city && !truthy cur.city
        then (locOf geo).city else cur.city := by
  rw [enrichUser_fst_eq]
  rw [show (applyUpdates (buildFinal (buildUpdates (locOf geo)) cur) cur).city
      = mergeCol (finCol (candCol (locOf geo).city) cur.city) cur.city from rfl]
  rw [mergeCol_finCol_candCol]

theorem enrichUser_district_eq (geo : Option GeoData) (cur : UserCols) :
    (enrichUser geo cur).1.district
      = if truthy (locOf geo).district && !truthy cur.district
        then (locOf geo).district else cur.district := by
  rw [enrichUser_fst_eq]
  rw [show (applyUpdates (buildFinal (buildUpdates (locOf geo)) cur) cur).district
      = mergeCol (finCol (candCol (locOf geo).district) cur.district) cur.district from rfl]
  rw [mergeCol_finCol_candCol]

theorem enrichUser_cc_eq (geo : Option GeoData) (cur : UserCols) :
    (enrichUser geo cur).1.country_code
      = if truthy (locOf geo).country_code2 && !truthy cur.country_code
        then (locOf geo).country_code2 else cur.country_code := by
  rw [enrichUser_fst_eq]
  rw [show (applyUpdates (buildFinal (buildUpdates (locOf geo)) cur) cur).country_code
      = mergeCol (finCol (candCol (locOf geo).country_code2) cur.country_code)
          cur.country_code from rfl]
  rw [mergeCol_finCol_candCol]

/-- C4, amended: for each of the five enrichment columns, a stored value that
is truthy (non-null and non-empty) survives `enrichUser` unchanged, and the
column changes only to a truthy candidate from the geolocation response while
the stored value was falsy (null or empty).  The original claim's "non-null"
fails for the stored empty string, which JS truthiness treats as absent
(see the counterexample). -/
theorem C4_enrichUser_first_writer_wins :
    ∀ (geo : Option GeoData) (cur : UserCols),
      ((truthy cur.country_name_official = true →
          (enrichUser geo cur).1.country_name_official = cur.country_name_official)
        ∧ ((enrichUser geo cur).1.country_name_official ≠ cur.country_name_official →
            truthy (locOf geo).country_name_official = true
            ∧ truthy cur.country_name_official = false
            ∧ (enrichUser geo cur).1.country_name_official
                = (locOf geo).country_name_official))
      ∧ ((truthy cur.state = true → (enrichUser geo cur).1.state = cur.state)
        ∧ ((enrichUser geo cur).1.state ≠ cur.state →
            truthy (locOf geo).state_prov = true ∧ truthy cur.state = false
            ∧ (enrichUser geo cur).1.state = (locOf geo).state_prov))
      ∧ ((truthy cur.city = true → (enrichUser geo cur).1.city = cur.city)
        ∧ ((enrichUser geo cur).1.city ≠ cur.city →
            truthy (locOf geo).city = true ∧ truthy cur.city = false
            ∧ (enrichUser geo cur).1.city = (locOf geo).city))
      ∧ ((truthy cur.district = true → (enrichUser geo cur).1.district = cur.district)
        ∧ ((enrichUser geo cur).1.district ≠ cur.district →
            truthy (locOf geo).district = true ∧ truthy cur.district = false
            ∧ (enrichUser geo cur).1.district = (locOf geo).district))
      ∧ ((truthy cur.country_code = true →
            (enrichUser geo cur).1.country_code = cur.country_code)
        ∧ ((enrichUser geo cur).1.country_code ≠ cur.country_code →
            truthy (locOf geo).country_code2 = true ∧ truthy cur.country_code = false
            ∧ (enrichUser geo cur).1.country_code = (locOf geo).country_code2)) := by
  intro geo cur
  refine ⟨?_, ?_, ?_, ?_, ?_⟩
  · rw [enrichUser_cno_eq]; exact fwwCol _ _
  · rw [enrichUser_state_eq]; exact fwwCol _ _
  · rw [enrichUser_city_eq]; exact fwwCol _ _
  · rw [enrichUser_district_eq]; exact fwwCol _ _
  · rw [enrichUser_cc_eq]; exact fwwCol _ _

/-- Concrete stored state used by the C4 counterexample and witness. -/
def geoNY : Option GeoData := some ⟨some ⟨none, some "NY", none, none, none⟩⟩

def curEmptyState : UserCols := ⟨none, some "", none, none, none⟩

def curCA : UserCols := ⟨none, some "CA", none, none, none⟩

/-- C4 counterexample: the stored `state` column holds the empty string,
which is non-null, yet `enrichUser` overwrites it with the API's
`state_prov = "NY"` because the JS code tests truthiness
(`!currentUser.state`), not null-ness.  This refutes the claim that a column
whose stored value is non-null before the call keeps the same stored value. -/
theorem C4_enrichUser_counterexample :
    curEmptyState.state = some "" ∧ curEmptyState.state ≠ none
    ∧ (enrichUser geoNY curEmptyState).1.state = some "NY" := by decide

/-- Closed witness for `C4_enrichUser_first_writer_wins`: a stored
`state = "CA"` survives an API response offering `state_prov = "NY"`. -/
theorem C4_enrichUser_first_writer_wins_witness :
    (enrichUser geoNY curCA).1.state = curCA.state :=
  (C4_enrichUser_first_writer_wins geoNY curCA).2.1.1 (by decide)

/-! ## Store writes (`supabase.js`, `insertUsers`)

A user record as returned by the upstream feed, and its mapping to the
`id_users` row shape.  Only `ipAddress` goes through `user.ipAddress || null`
(so an empty string also becomes `NULL`); the other fields are copied. -/

structure ApiUser where
  user_id : String
  email : Option String
  ipAddress : Option String
  identifierType : Option String
  createdAt : Option String
  updatedAt : Option String
deriving DecidableEq, Repr

structure DbUser where
  user_id : String
  email : Option String
  ip_address : Option String
  identifier_type : Option String
  created_at : Option String
  updated_at : Option String
  ingested_at : String
deriving DecidableEq, Repr

/-- JS `x || null` on a nullable string. -/
def jsOrNull (o : Option String) : Option String :=
  match o with
  | some s => if s == "" then none else some s
  | none => none

def toDbUser (nowIso : String) (u : ApiUser) : DbUser :=
  ⟨u.user_id, u.email, jsOrNull u.ipAddress, u.identifierType, u.createdAt,
   u.updatedAt, nowIso⟩

/-- `insertUsers(users)` from `supabase.js`: returns `0` for a missing or
empty array without touching the store; otherwise maps the rows and issues
one upsert, whose success is modelled by the `upsertOk` oracle.  A store
error is caught, logged and turned into a `0` return (the function never
throws).  The second component records whether the store was contacted. -/
def insertUsers (upsertOk : Bool) (nowIso : String) (users : Option (List ApiUser)) :
    Nat × Bool :=
  match users with
  | none => (0, false)
  | some us =>
    if us.length = 0 then (0, false)
    else
      if upsertOk then ((us.map (toDbUser nowIso)).length, true) else (0, true)

/-- C9: `insertUsers` never throws; a null or empty list yields `0` without
contacting the store, a non-empty list yields the full input length when the
store upsert succeeds, and a failed store upsert is swallowed, yielding `0`. -/
theorem C9_insertUsers_swallows_errors :
    ∀ (upsertOk : Bool) (nowIso : String) (users : Option (List ApiUser)),
      (users = none → insertUsers upsertOk nowIso users = (0, false))
      ∧ (users = some [] → insertUsers upsertOk nowIso users = (0, false))
      ∧ (∀ us, users = some us → us ≠ [] → upsertOk = true →
          insertUsers upsertOk nowIso users = (us.length, true))
      ∧ (∀ us, users = some us → us ≠ [] → upsertOk = false →
          insertUsers upsertOk nowIso users = (0, true)) := by
  intro upsertOk nowIso users
  refine ⟨?_, ?_, ?_, ?_⟩
  · rintro rfl; rfl
  · rintro rfl; rfl
  · rintro us rfl hne rfl
    have hlen : us.length ≠ 0 := by simpa using hne
    simp [insertUsers, hlen]
  · rintro us rfl hne rfl
    have hlen : us.length ≠ 0 := by simpa using hne
    simp [insertUsers, hlen]

/-- Sample user record for closed witnesses. -/
def uA : ApiUser := ⟨"uA", none, none, none, none, none⟩

/-- Closed witness for `C9_insertUsers_swallows_errors` at concrete inputs. -/
theorem C9_insertUsers_swallows_errors_witness :
    insertUsers true "t0" none = (0, false)
    ∧ insertUsers true "t0" (some [uA]) = (1, true)
    ∧ insertUsers false "t0" (some [uA]) = (0, true) :=
  ⟨(C9_insertUsers_swallows_errors true "t0" none).1 rfl,
   (C9_insertUsers_swallows_errors true "t0" (some [uA])).2.2.1 [uA] rfl
     (by decide) rfl,
   (C9_insertUsers_swallows_errors false "t0" (some [uA])).2.2.2 [uA] rfl
     (by decide) rfl⟩

/-! ## Page fetch and rate-limit slot accounting (`sync.js`, `fetchUsersPage`)

The axios call either resolves (transport success; the embedded application
status may still differ from 1, which the code turns into a thrown error
after recording the call) or rejects with an error carrying `response`
(HTTP-level error), `request` (no response received) or neither (local
error).  `recordApiCall()` appends one timestamp; the `catch` block records
only when `error.response || error.request` — the plain `Error` thrown for a
non-1 application status has neither, so it is not recorded a second time. -/

structure PageData where
  users : List ApiUser
  hasNextPage : Bool
deriving DecidableEq, Repr

inductive AxiosResult
  | resolved (status : Int) (data : PageData)
  | rejectedResponse
  | rejectedRequest
  | rejectedLocal
deriving DecidableEq, Repr

inductive FetchPageErr
  | appStatus (status : Int)
  | apiError
  | networkError
  | localError
deriving DecidableEq, Repr

/-- `fetchUsersPage(page)` without the rate-limit wait (modelled separately):
result of the call and the timestamp list after the call, `nowTs` being the
time at which the call completes. -/
def fetchUsersPage (ax : AxiosResult) (nowTs : Nat) (ts : List Nat) :
    Except FetchPageErr PageData × List Nat :=
  match ax with
  | .resolved status data =>
    if status = 1 then (.ok data, ts ++ [nowTs])
    else (.error (.appStatus status), ts ++ [nowTs])
  | .rejectedResponse => (.error .apiError, ts ++ [nowTs])
  | .rejectedRequest => (.error .networkError, ts ++ [nowTs])
  | .rejectedLocal => (.error .localError, ts)

/-- Whether the request reached the network: it resolved, or it failed with
`error.response` or `error.request` set. -/
def reachesNetwork : AxiosResult → Bool
  | .rejectedLocal => false
  | _ => true

/-- C6: a `fetchUsersPage` call that reaches the network — success, non-1
application status, HTTP error response or no response at all — appends
exactly one rate-limit timestamp; a call failing before leaving the process
appends none. -/
theorem C6_fetchUsersPage_one_slot :
    ∀ (ax : AxiosResult) (nowTs : Nat) (ts : List Nat),
      (fetchUsersPage ax nowTs ts).2
        = if reachesNetwork ax then ts ++ [nowTs] else ts := by
  intro ax nowTs ts
  cases ax with
  | resolved status data =>
    by_cases h : status = 1 <;> simp [fetchUsersPage, reachesNetwork, h]
  | rejectedResponse => rfl
  | rejectedRequest => rfl
  | rejectedLocal => rfl

/-! ## Enrichment orchestrator (`enrichment-service.js`, `enrichUsers` /
`processEnrichmentBatch`)

`processEnrichmentBatch(batchSize, offset)` runs one selector query
(`getUsersNeedingEnrichment`) and processes each returned row (the inner
per-row work never alters control flow: its `try` increments `processedCount`
first and catches every error), so `processed` equals the selector result
length and `hasMore` is `length === batchSize`, with an empty result
returning `hasMore: false` early.  `enrichUsers` loops with
`offset += batchSize` while `hasMore`, also stopping when
`processed < batchSize`.  The selector is an oracle from offset to rows and
`fuel` bounds the number of iterations we unfold; the run returns the
`(offset, processed)` pair of each executed batch in order. -/

structure EnrichRow where
  user_id : String
  ip_address : Option (List Char)
deriving DecidableEq, Repr

def enrichUsersRun (selector : Nat → List EnrichRow) (batchSize : Nat) :
    Nat → Nat → List (Nat × Nat)
  | 0, _ => []
  | fuel + 1, offset =>
    if (selector offset).length = 0 then [(offset, 0)]
    else if (selector offset).length = batchSize then
      (offset, (selector offset).length)
        :: enrichUsersRun selector batchSize fuel (offset + batchSize)
    else [(offset, (selector offset).length)]

theorem enrichUsersRun_spec (selector : Nat → List EnrichRow) (batchSize : Nat) :
    ∀ (fuel off j : Nat) (p : Nat × Nat),
      (enrichUsersRun selector batchSize fuel off)[j]? = some p →
      p.1 = off + j * batchSize
      ∧ (p.2 < batchSize → j + 1 = (enrichUsersRun selector batchSize fuel off).length)
      ∧ (j + 1 < (enrichUsersRun selector batchSize fuel off).length → p.2 = batchSize) := by
  intro fuel
  induction fuel with
  | zero => intro off j p hp; simp [enrichUsersRun] at hp
  | succ fuel ih =>
    intro off j p hp
    by_cases h0 : (selector off).length = 0
    · have hrun : enrichUsersRun selector batchSize (fuel + 1) off = [(off, 0)] := by
        simp [enrichUsersRun, h0]
      rw [hrun] at hp ⊢
      cases j with
      | zero =>
        have hpe : p = (off, 0) := by simpa using hp.symm
        subst hpe
        exact ⟨by simp, fun _ => rfl, fun h => by simp at h⟩
      | succ j => simp at hp
    · by_cases hB : (selector off).length = batchSize
      · have hBne : batchSize ≠ 0 := fun h => h0 (hB.trans h)
        have hrun : enrichUsersRun selector batchSize (fuel + 1) off
            = (off, (selector off).length)
                :: enrichUsersRun selector batchSize fuel (off + batchSize) := by
          simp [enrichUsersRun, h0, hB, hBne]
        rw [hrun] at hp ⊢
        cases j with
        | zero =>
          have hpe : p = (off, (selector off).length) := by simpa using hp.symm
          subst hpe
          refine ⟨by simp, fun hlt => ?_, fun _ => by simpa using hB⟩
          exact absurd (hB ▸ hlt) (lt_irrefl _)
        | succ j =>
          rw [List.getElem?_cons_succ] at hp
          obtain ⟨ha, hb, hc⟩ := ih (off + batchSize) j p hp
          refine ⟨by rw [ha]; ring, ?_, ?_⟩
          · intro hlt
            have := hb hlt
            simp [← this]
          · intro hlt
            exact hc (by simpa using hlt)
      · have hrun : enrichUsersRun selector batchSize (fuel + 1) off
            = [(off, (selector off).length)] := by
          simp [enrichUsersRun, h0, hB]
        rw [hrun] at hp ⊢
        cases j with
        | zero =>
          have hpe : p = (off, (selector off).length) := by simpa using hp.symm
          subst hpe
          exact ⟨by simp, fun _ => rfl, fun h => by simp at h⟩
        | succ j => simp at hp

/-- C7: `enrichUsers` issues its batch steps at offsets `0, B, 2B, …` (never
restarting from 0), every batch other than the last processes exactly `B`
rows, and a batch processing fewer than `B` rows is the last one — no
further selector query is issued after it. -/
theorem C7_enrichUsers_offsets :
    ∀ (selector : Nat → List EnrichRow) (batchSize fuel j : Nat) (p : Nat × Nat),
      (enrichUsersRun selector batchSize fuel 0)[j]? = some p →
      p.1 = j * batchSize
      ∧ (p.2 < batchSize → j + 1 = (enrichUsersRun selector batchSize fuel 0).length)
      ∧ (j + 1 < (enrichUsersRun selector batchSize fuel 0).length → p.2 = batchSize) := by
  intro selector batchSize fuel j p hp
  obtain ⟨ha, hb, hc⟩ := enrichUsersRun_spec selector batchSize fuel 0 j p hp
  exact ⟨by simpa using ha, hb, hc⟩

/-- Closed witness for `C7_enrichUsers_offsets`: a selector handing out a
full batch of 1 at offset 0 and an empty batch afterwards. -/
theorem C7_enrichUsers_offsets_witness :
    (1, 0).1 = (1 : Nat) * 1
    ∧ ((1, 0).2 < 1 →
        1 + 1 = (enrichUsersRun (fun o => if o = 0 then [⟨"uA", none⟩] else []) 1 5 0).length)
    ∧ (1 + 1 < (enrichUsersRun (fun o => if o = 0 then [⟨"uA", none⟩] else []) 1 5 0).length →
        (1, 0).2 = 1) :=
  C7_enrichUsers_offsets (fun o => if o = 0 then [⟨"uA", none⟩] else []) 1 5 1 (1, 0)
    (by decide)

/-! ## Sync orchestrator (`sync.js`: `fetchAllPages`, `fetchIncrementalPages`,
`syncUsers`)

The upstream feed is an oracle: a list whose element `i` is the outcome of
fetching page `i + 1` (fetching a page beyond the modelled feed behaves as a
fetch error).  The store-upsert oracle `okf k` gives the outcome of the
`k`-th store-contacting upsert of the run.  A run produces a trace — the
page numbers passed to `fetchUsersPage`, the argument list and outcome of
every store-contacting upsert, and the values passed to `updateCheckpoint` —
plus an optional propagated error.  Timing (the rate limiter) is modelled
separately and does not affect which pages or records are processed. -/

inductive FetchR
  | ok (users : List ApiUser) (hasNextPage : Bool)
  | fail
deriving DecidableEq, Repr

inductive SyncErr
  | fetchFailed (page : Nat)
  | emptyPage1
  | noCheckpoint
deriving DecidableEq, Repr

structure SyncTrace where
  fetched : List Nat
  upserts : List (List ApiUser × Bool)
  checkpointWrites : List String
deriving DecidableEq, Repr

def recFetch (n : Nat) (tr : SyncTrace) : SyncTrace :=
  { tr with fetched := tr.fetched ++ [n] }

/-- The `insertUsers` call as seen by the sync run: an empty argument does
not contact the store; otherwise the upsert is recorded with its oracle
outcome (a failure is swallowed, so the run continues either way). -/
def doUpsert (okf : Nat → Bool) (users : List ApiUser) (k : Nat) (tr : SyncTrace) :
    SyncTrace × Nat :=
  if users.length = 0 then (tr, k)
  else ({ tr with upserts := tr.upserts ++ [(users, okf k)] }, k + 1)

/-- The page contents of a successful fetch outcome. -/
def getUsers : FetchR → List ApiUser
  | .ok users _ => users
  | .fail => []

/-- `fetchAllPages`: fetch pages `n, n+1, …` while `hasNextPage`, accumulating
all records.  The loop has no empty-page break; it stops only when
`pagination.hasNextPage` is falsy.  A fetch error propagates. -/
def fetchAllGo : List FetchR → Nat → SyncTrace → SyncTrace × Except SyncErr (List ApiUser)
  | [], n, tr => (recFetch n tr, .error (.fetchFailed n))
  | r :: rest, n, tr =>
    match r with
    | .fail => (recFetch n tr, .error (.fetchFailed n))
    | .ok users hasNext =>
      if hasNext then
        match fetchAllGo rest (n + 1) (recFetch n tr) with
        | (tr2, .ok more) => (tr2, .ok (users ++ more))
        | (tr2, .error e) => (tr2, .error e)
      else (recFetch n tr, .ok users)

/-- JS `Array.prototype.findIndex`, as an `Option`-valued index. -/
def findIndexA (p : ApiUser → Bool) : List ApiUser → Option Nat
  | [] => none
  | a :: as => if p a then some 0 else (findIndexA p as).map (· + 1)

/-- Loop body of `fetchIncrementalPages`: fetch pages from `n`, stop on an
empty page; record the first user id seen on page 1; when the checkpoint id
is found at index `i`, upsert only the records before it and stop; otherwise
upsert the whole page and continue while `hasNextPage`.  Returns the first
page-1 user id observed (if any). -/
def incGo (okf : Nat → Bool) (cp : String) :
    List FetchR → Nat → Option String → Nat → SyncTrace →
    SyncTrace × Nat × Except SyncErr (Option String)
  | [], n, _, k, tr => (recFetch n tr, k, .error (.fetchFailed n))
  | r :: rest, n, f1, k, tr =>
    match r with
    | .fail => (recFetch n tr, k, .error (.fetchFailed n))
    | .ok users hasNext =>
      match users with
      | [] => (recFetch n tr, k, .ok f1)
      | u0 :: _ =>
        match findIndexA (fun u => u.user_id == cp) users with
        | some i =>
          match doUpsert okf (users.take i) k (recFetch n tr) with
          | (tr2, k2) => (tr2, k2, .ok (if n = 1 then some u0.user_id else f1))
        | none =>
          match doUpsert okf users k (recFetch n tr) with
          | (tr2, k2) =>
            if hasNext then incGo okf cp rest (n + 1) (if n = 1 then some u0.user_id else f1) k2 tr2
            else (tr2, k2, .ok (if n = 1 then some u0.user_id else f1))

/-- `fetchIncrementalPages(checkpointUserId)`: run the loop from page 1; the
post-loop test `if (!firstUserIdFromPage1)` is JS truthiness, so both a
never-assigned value (`null`) and an assigned empty-string `user_id` are
falsy: in either case page 1 is re-fetched solely for the new checkpoint
value, and the run fails with `Could not determine checkpoint` when the
value obtained is still falsy (page 1 empty, or its head `user_id` is the
empty string). -/
def fetchIncrementalPages (okf : Nat → Bool) (feed : List FetchR) (cp : String) :
    SyncTrace × Nat × Except SyncErr String :=
  match incGo okf cp feed 1 none 0 ⟨[], [], []⟩ with
  | (tr, k, .error e) => (tr, k, .error e)
  | (tr, k, .ok f1) =>
    if truthy f1 then (tr, k, .ok (f1.getD ""))
    else
      match feed with
      | FetchR.ok (u :: _) _ :: _ =>
        if truthy (some u.user_id) then (recFetch 1 tr, k, .ok u.user_id)
        else (recFetch 1 tr, k, .error .noCheckpoint)
      | FetchR.ok [] _ :: _ => (recFetch 1 tr, k, .error .noCheckpoint)
      | FetchR.fail :: _ => (recFetch 1 tr, k, .error (.fetchFailed 1))
      | [] => (recFetch 1 tr, k, .error (.fetchFailed 1))

/-- `syncUsers()`: full sync when no checkpoint is stored (fetch everything,
one bulk upsert when non-empty, re-fetch page 1 and store its head user id as
the checkpoint; skip everything when the feed yielded no records), otherwise
incremental sync followed by a checkpoint update.  Errors propagate to the
caller as the second component. -/
def syncUsers (okf : Nat → Bool) (feed : List FetchR) (cp : Option String) :
    SyncTrace × Option SyncErr :=
  match cp with
  | some c =>
    match fetchIncrementalPages okf feed c with
    | (tr, _, .error e) => (tr, some e)
    | (tr, _, .ok newCp) =>
      ({ tr with checkpointWrites := tr.checkpointWrites ++ [newCp] }, none)
  | none =>
    match fetchAllGo feed 1 ⟨[], [], []⟩ with
    | (tr, .error e) => (tr, some e)
    | (tr, .ok allUsers) =>
      match allUsers with
      | [] => (tr, none)
      | _ :: _ =>
        match doUpsert okf allUsers 0 tr with
        | (tr2, _) =>
          match feed with
          | FetchR.ok (u :: _) _ :: _ =>
            ({ recFetch 1 tr2 with
                checkpointWrites := (recFetch 1 tr2).checkpointWrites ++ [u.user_id] }, none)
          | FetchR.ok [] _ :: _ => (recFetch 1 tr2, some .emptyPage1)
          | FetchR.fail :: _ => (recFetch 1 tr2, some (.fetchFailed 1))
          | [] => (recFetch 1 tr2, some (.fetchFailed 1))

theorem fetchAllGo_collect (lastUs : List ApiUser) (rest : List FetchR) :
    ∀ (pre : List FetchR) (n : Nat) (tr : SyncTrace),
      (∀ r ∈ pre, ∃ us, r = FetchR.ok us true) →
      fetchAllGo (pre ++ FetchR.ok lastUs false :: rest) n tr
        = ({ tr with fetched := tr.fetched ++ List.range' n (pre.length + 1) },
           .ok ((pre.map getUsers).flatten ++ lastUs)) := by
  intro pre
  induction pre with
  | nil =>
    intro n tr _
    simp [fetchAllGo, recFetch, List.range'_succ]
  | cons q pre ih =>
    intro n tr hq
    obtain ⟨us, rfl⟩ := hq q (List.mem_cons_self q pre)
    have hrec := ih (n + 1) (recFetch n tr) (fun r hr => hq r (List.mem_cons_of_mem _ hr))
    simp only [List.cons_append, fetchAllGo, List.append_eq]
    rw [hrec]
    simp [recFetch, List.range'_succ, getUsers]

theorem flatten_nil_of_all_nil (xs : List FetchR) (h : ∀ r ∈ xs, getUsers r = []) :
    (xs.map getUsers).flatten = [] := by
  induction xs with
  | nil => rfl
  | cons q xs ih =>
    rw [List.map_cons, List.flatten_cons, h q (List.mem_cons_self q xs),
        ih (fun r hr => h r (List.mem_cons_of_mem _ hr))]
    rfl

/-- C10: with no checkpoint stored and a feed whose pages all carry zero
records (the last one reporting no next page), `syncUsers` completes without
error, contacts the store with no upsert, re-fetches no page (in particular
not page 1) and writes no checkpoint — the next run will again be a full
sync. -/
theorem C10_full_sync_empty_feed :
    ∀ (okf : Nat → Bool) (xs : List FetchR),
      (∀ r ∈ xs, r = FetchR.ok [] true) →
      syncUsers okf (xs ++ [FetchR.ok [] false]) none
        = (⟨List.range' 1 (xs.length + 1), [], []⟩, none) := by
  intro okf xs h
  have hcollect := fetchAllGo_collect [] [] xs 1 ⟨[], [], []⟩
    (fun r hr => ⟨[], h r hr⟩)
  have hjoin : (xs.map getUsers).flatten = [] :=
    flatten_nil_of_all_nil xs (fun r hr => by rw [h r hr]; rfl)
  rw [show syncUsers okf (xs ++ [FetchR.ok [] false]) none
      = (match fetchAllGo (xs ++ [FetchR.ok [] false]) 1 ⟨[], [], []⟩ with
         | (tr, .error e) => (tr, some e)
         | (tr, .ok allUsers) =>
           match allUsers with
           | [] => (tr, none)
           | _ :: _ =>
             match doUpsert okf allUsers 0 tr with
             | (tr2, _) =>
               match xs ++ [FetchR.ok [] false] with
               | FetchR.ok (u :: _) _ :: _ =>
                 ({ recFetch 1 tr2 with
                     checkpointWrites := (recFetch 1 tr2).checkpointWrites ++ [u.user_id] },
                  none)
               | FetchR.ok [] _ :: _ => (recFetch 1 tr2, some .emptyPage1)
               | FetchR.fail :: _ => (recFetch 1 tr2, some (.fetchFailed 1))
               | [] => (recFetch 1 tr2, some (.fetchFailed 1))) from rfl]
  rw [hcollect, hjoin]
  simp

/-- Closed witness for `C10_full_sync_empty_feed`: a two-page feed of empty
pages. -/
theorem C10_full_sync_empty_feed_witness :
    syncUsers (fun _ => true) [FetchR.ok [] true, FetchR.ok [] false] none
      = (⟨List.range' 1 2, [], []⟩, none) :=
  C10_full_sync_empty_feed (fun _ => true) [FetchR.ok [] true]
    (by intro r hr; simpa using hr)

/-- C5, amended: full sync fetches pages `1, 2, …` sequentially while
`hasNextPage` is truthy (an empty page does not stop the loop), accumulates
every record, issues one bulk upsert of them all (when at least one record
was fetched), then re-fetches page 1 and writes its first record's `user_id`
as the new checkpoint. -/
theorem C5_full_sync :
    ∀ (okf : Nat → Bool) (pre rest : List FetchR) (lastUs allUs : List ApiUser)
      (u0 : ApiUser) (us1 : List ApiUser) (b1 : Bool),
      (∀ r ∈ pre, ∃ us, r = FetchR.ok us true) →
      allUs = (pre.map getUsers).flatten ++ lastUs →
      allUs ≠ [] →
      (∃ tl, pre ++ FetchR.ok lastUs false :: rest = FetchR.ok (u0 :: us1) b1 :: tl) →
      syncUsers okf (pre ++ FetchR.ok lastUs false :: rest) none
        = (⟨List.range' 1 (pre.length + 1) ++ [1], [(allUs, okf 0)], [u0.user_id]⟩,
           none) := by
  intro okf pre rest lastUs allUs u0 us1 b1 hpre hall hne hhead
  obtain ⟨tl, hfeed⟩ := hhead
  obtain ⟨a0, as, hcons⟩ := List.exists_cons_of_ne_nil hne
  have hAll := fetchAllGo_collect lastUs rest pre 1 ⟨[], [], []⟩ hpre
  rw [show syncUsers okf (pre ++ FetchR.ok lastUs false :: rest) none
      = (match fetchAllGo (pre ++ FetchR.ok lastUs false :: rest) 1 ⟨[], [], []⟩ with
         | (tr, .error e) => (tr, some e)
         | (tr, .ok allUsers) =>
           match allUsers with
           | [] => (tr, none)
           | _ :: _ =>
             match doUpsert okf allUsers 0 tr with
             | (tr2, _) =>
               match pre ++ FetchR.ok lastUs false :: rest with
               | FetchR.ok (u :: _) _ :: _ =>
                 ({ recFetch 1 tr2 with
                     checkpointWrites := (recFetch 1 tr2).checkpointWrites ++ [u.user_id] },
                  none)
               | FetchR.ok [] _ :: _ => (recFetch 1 tr2, some .emptyPage1)
               | FetchR.fail :: _ => (recFetch 1 tr2, some (.fetchFailed 1))
               | [] => (recFetch 1 tr2, some (.fetchFailed 1))) from rfl]
  rw [hAll, ← hall, hcons, hfeed]
  have hlen : (a0 :: as).length ≠ 0 := by simp
  simp [doUpsert, hlen, recFetch]

/-- Feed used by the C5 counterexample: page 1 is empty but reports a next
page; page 2 carries a record. -/
def feedC5 : List FetchR := [FetchR.ok [] true, FetchR.ok [uA] false]

/-- C5 counterexample: with `feedC5`, page 1 is empty, yet full sync goes on
to fetch page 2 and upserts its record — the loop has no empty-page stop, so
the claim's "until hasNextPage is false or a fetched page is empty" is wrong
about the code. -/
theorem C5_full_sync_counterexample :
    getUsers (feedC5.headD FetchR.fail) = []
    ∧ (syncUsers (fun _ => true) feedC5 none).1.fetched = [1, 2, 1]
    ∧ ((syncUsers (fun _ => true) feedC5 none).1.upserts.map Prod.fst) = [[uA]] := by
  decide

/-- Closed witness for `C5_full_sync`: one page with one record. -/
theorem C5_full_sync_witness :
    syncUsers (fun _ => true) [FetchR.ok [uA] false] none
      = (⟨List.range' 1 1 ++ [1], [([uA], true)], ["uA"]⟩, none) :=
  C5_full_sync (fun _ => true) [] [] [uA] [uA] uA [] false
    (by intro r hr; simp at hr) (by simp) (by simp) ⟨[], rfl⟩

theorem doUpsert_writes (okf : Nat → Bool) (us : List ApiUser) (k : Nat) (tr : SyncTrace) :
    (doUpsert okf us k tr).1.checkpointWrites = tr.checkpointWrites := by
  unfold doUpsert
  split <;> rfl

theorem fetchAllGo_writes : ∀ (feed : List FetchR) (n : Nat) (tr : SyncTrace),
    (fetchAllGo feed n tr).1.checkpointWrites = tr.checkpointWrites := by
  intro feed
  induction feed with
  | nil => intro n tr; rfl
  | cons r rest ih =>
    intro n tr
    cases r with
    | fail => rfl
    | ok users hasNext =>
      cases hasNext with
      | false => rfl
      | true =>
        have h := ih (n + 1) (recFetch n tr)
        simp only [fetchAllGo]
        rcases hrec : fetchAllGo rest (n + 1) (recFetch n tr) with ⟨tr2, res⟩
        rw [hrec] at h
        cases res with
        | ok more => simpa [recFetch] using h
        | error e => simpa [recFetch] using h

theorem incGo_writes (okf : Nat → Bool) (cp : String) :
    ∀ (feed : List FetchR) (n : Nat) (f1 : Option String) (k : Nat) (tr : SyncTrace),
      (incGo okf cp feed n f1 k tr).1.checkpointWrites = tr.checkpointWrites := by
  intro feed
  induction feed with
  | nil => intro n f1 k tr; rfl
  | cons r rest ih =>
    intro n f1 k tr
    cases r with
    | fail => rfl
    | ok users hasNext =>
      cases users with
      | nil => rfl
      | cons u0 utl =>
        simp only [incGo]
        cases hfi : findIndexA (fun u => u.user_id == cp) (u0 :: utl) with
        | some i =>
          rcases hup : doUpsert okf ((u0 :: utl).take i) k (recFetch n tr) with ⟨tr2, k2⟩
          have hw : tr2.checkpointWrites = tr.checkpointWrites := by
            have h := doUpsert_writes okf ((u0 :: utl).take i) k (recFetch n tr)
            rw [hup] at h
            simpa [recFetch] using h
          simpa [hup] using hw
        | none =>
          rcases hup : doUpsert okf (u0 :: utl) k (recFetch n tr) with ⟨tr2, k2⟩
          have hw : tr2.checkpointWrites = tr.checkpointWrites := by
            have h := doUpsert_writes okf (u0 :: utl) k (recFetch n tr)
            rw [hup] at h
            simpa [recFetch] using h
          cases hasNext with
          | false => simpa using hw
          | true =>
            have hih := ih (n + 1) (if n = 1 then some u0.user_id else f1) k2 tr2
            simpa using hih.trans hw

theorem fetchIncrementalPages_writes (okf : Nat → Bool) (feed : List FetchR) (cp : String) :
    (fetchIncrementalPages okf feed cp).1.checkpointWrites = [] := by
  unfold fetchIncrementalPages
  rcases hrun : incGo okf cp feed 1 none 0 ⟨[], [], []⟩ with ⟨tr, k, res⟩
  have hw : tr.checkpointWrites = [] := by
    have h := incGo_writes okf cp feed 1 none 0 ⟨[], [], []⟩
    rw [hrun] at h
    exact h
  cases res with
  | error e => simpa using hw
  | ok f1 =>
    by_cases ht : truthy f1 = true
    · simp only [ht, if_true]
      simpa using hw
    · simp only [ht, if_false, Bool.false_eq_true]
      cases feed with
      | nil => simpa [recFetch] using hw
      | cons r0 ftl =>
        cases r0 with
        | fail => simpa [recFetch] using hw
        | ok us0 b0 =>
          cases us0 with
          | nil => simpa [recFetch] using hw
          | cons v vs =>
            by_cases ht2 : truthy (some v.user_id) = true
            · simp only [ht2, if_true]
              simpa [recFetch] using hw
            · simp only [ht2, if_false, Bool.false_eq_true]
              simpa [recFetch] using hw

/-- C2, amended: a sync run that fails — any page-fetch error or the
impossibility of determining a checkpoint — propagates the error and writes
no checkpoint, leaving the stored value intact.  A store-write error during
an upsert, however, is swallowed inside `insertUsers` (which returns `0`),
so the run continues and still writes its checkpoint (see the
counterexample); only fetch-level and checkpoint-determination errors abort
the run. -/
theorem C2_failed_sync_no_checkpoint :
    ∀ (okf : Nat → Bool) (feed : List FetchR) (cp : Option String) (e : SyncErr),
      (syncUsers okf feed cp).2 = some e →
      (syncUsers okf feed cp).1.checkpointWrites = [] := by
  intro okf feed cp e
  cases cp with
  | some c =>
    simp only [syncUsers]
    rcases hr : fetchIncrementalPages okf feed c with ⟨tr, k, res⟩
    have hw : tr.checkpointWrites = [] := by
      have h := fetchIncrementalPages_writes okf feed c
      rw [hr] at h
      exact h
    cases res with
    | error e2 => intro _; exact hw
    | ok v => intro h; simp at h
  | none =>
    simp only [syncUsers]
    rcases hr : fetchAllGo feed 1 ⟨[], [], []⟩ with ⟨tr, res⟩
    have hw : tr.checkpointWrites = [] := by
      have h := fetchAllGo_writes feed 1 ⟨[], [], []⟩
      rw [hr] at h
      exact h
    cases res with
    | error e2 => intro _; exact hw
    | ok allUs =>
      cases allUs with
      | nil => intro h; simp at h
      | cons a0 as =>
        rcases hup : doUpsert okf (a0 :: as) 0 tr with ⟨tr2, k2⟩
        have hw2 : tr2.checkpointWrites = [] := by
          have h := doUpsert_writes okf (a0 :: as) 0 tr
          rw [hup] at h
          rw [h]
          exact hw
        cases feed with
        | nil => intro _; simpa [recFetch, hup] using hw2
        | cons r0 ftl =>
          cases r0 with
          | fail => intro _; simpa [recFetch, hup] using hw2
          | ok us0 b0 =>
            cases us0 with
            | nil => intro _; simpa [recFetch, hup] using hw2
            | cons v vs => intro h; simp at h

/-- Feed used by the C2 counterexample: a single page with one record. -/
def feedC2 : List FetchR := [FetchR.ok [uA] false]

/-- C2 counterexample: with every store upsert failing (oracle constantly
false), the bulk upsert of the full sync fails — recorded as
`([uA], false)` — yet the run completes without error and still writes the
checkpoint, refuting the claim that a store-write error leaves the
checkpoint unwritten. -/
theorem C2_failed_sync_counterexample :
    (syncUsers (fun _ => false) feedC2 none).1.upserts = [([uA], false)]
    ∧ (syncUsers (fun _ => false) feedC2 none).1.checkpointWrites = ["uA"]
    ∧ (syncUsers (fun _ => false) feedC2 none).2 = none := by
  decide

/-- Closed witness for `C2_failed_sync_no_checkpoint`: a run whose first page
fetch fails writes no checkpoint. -/
theorem C2_failed_sync_no_checkpoint_witness :
    (syncUsers (fun _ => true) [FetchR.fail] none).1.checkpointWrites = [] :=
  C2_failed_sync_no_checkpoint (fun _ => true) [FetchR.fail] none
    (SyncErr.fetchFailed 1) (by decide)

/-- The store-contacting upserts recorded while the incremental loop walks a
run of full pages, starting at upsert counter `k`. -/
def pageUpserts (okf : Nat → Bool) : Nat → List FetchR → List (List ApiUser × Bool)
  | _, [] => []
  | k, r :: rest => (getUsers r, okf k) :: pageUpserts okf (k + 1) rest

theorem pageUpserts_map_fst (okf : Nat → Bool) :
    ∀ (k : Nat) (pre : List FetchR),
      (pageUpserts okf k pre).map Prod.fst = pre.map getUsers := by
  intro k pre
  induction pre generalizing k with
  | nil => rfl
  | cons r rest ih => simp [pageUpserts, ih]

theorem findIndexA_none (p : ApiUser → Bool) :
    ∀ us : List ApiUser, (∀ u ∈ us, p u = false) → findIndexA p us = none := by
  intro us
  induction us with
  | nil => intro _; rfl
  | cons a as ih =>
    intro h
    have ha : p a = false := h a (List.mem_cons_self a as)
    simp [findIndexA, ha, ih (fun u hu => h u (List.mem_cons_of_mem _ hu))]

/-- First page-1 head user id observed after walking `pre` starting at page
`n` with current value `f1`. -/
def f1upd (pre : List FetchR) (n : Nat) (f1 : Option String) : Option String :=
  if n = 1 then
    match pre with
    | FetchR.ok (u0 :: _) _ :: _ => some u0.user_id
    | _ => f1
  else f1

theorem incGo_skip (okf : Nat → Bool) (cp : String) (ps : List FetchR) :
    ∀ (pre : List FetchR) (n : Nat) (f1 : Option String) (k : Nat) (tr : SyncTrace),
      1 ≤ n →
      (∀ r ∈ pre, ∃ us, r = FetchR.ok us true ∧ us ≠ []
          ∧ ∀ u ∈ us, (u.user_id == cp) = false) →
      incGo okf cp (pre ++ ps) n f1 k tr
        = incGo okf cp ps (n + pre.length) (f1upd pre n f1) (k + pre.length)
            { tr with fetched := tr.fetched ++ List.range' n pre.length,
                      upserts := tr.upserts ++ pageUpserts okf k pre } := by
  intro pre
  induction pre with
  | nil =>
    intro n f1 k tr h1 hpre
    simp [f1upd, pageUpserts]
  | cons q pre ih =>
    intro n f1 k tr h1 hpre
    obtain ⟨us, hq, hne, hnocp⟩ := hpre q (List.mem_cons_self q pre)
    subst hq
    obtain ⟨u0, utl, rfl⟩ := List.exists_cons_of_ne_nil hne
    have hfi : findIndexA (fun u => u.user_id == cp) (u0 :: utl) = none :=
      findIndexA_none _ _ hnocp
    have hup : doUpsert okf (u0 :: utl) k (recFetch n tr)
        = ({ recFetch n tr with
              upserts := (recFetch n tr).upserts ++ [((u0 :: utl), okf k)] }, k + 1) := by
      simp [doUpsert]
    have hstep : incGo okf cp ((FetchR.ok (u0 :: utl) true :: pre) ++ ps) n f1 k tr
        = incGo okf cp (pre ++ ps) (n + 1) (if n = 1 then some u0.user_id else f1) (k + 1)
            { tr with fetched := tr.fetched ++ [n],
                      upserts := tr.upserts ++ [((u0 :: utl), okf k)] } := by
      simp only [List.cons_append, incGo, hfi, hup]
      simp [recFetch]
    rw [hstep, ih (n + 1) (if n = 1 then some u0.user_id else f1) (k + 1) _ (by omega)
          (fun r hr => hpre r (List.mem_cons_of_mem _ hr))]
    have e1 : n + (FetchR.ok (u0 :: utl) true :: pre).length = n + 1 + pre.length := by
      simp; omega
    have e2 : k + (FetchR.ok (u0 :: utl) true :: pre).length = k + 1 + pre.length := by
      simp; omega
    have e3 : f1upd (FetchR.ok (u0 :: utl) true :: pre) n f1
        = f1upd pre (n + 1) (if n = 1 then some u0.user_id else f1) := by
      have hn1 : n + 1 ≠ 1 := by omega
      by_cases hn : n = 1
      · simp [f1upd, hn, hn1]
      · simp [f1upd, hn, hn1]
    have e4 : tr.fetched ++ [n] ++ List.range' (n + 1) pre.length
        = tr.fetched ++ List.range' n (pre.length + 1) := by
      rw [List.range'_succ]
      simp
    have e5 : tr.upserts ++ [((u0 :: utl), okf k)] ++ pageUpserts okf (k + 1) pre
        = tr.upserts ++ pageUpserts okf k (FetchR.ok (u0 :: utl) true :: pre) := by
      simp [pageUpserts, getUsers]
    rw [e1, e2, e3, e4, e5]
    simp

/-- Head `user_id` of the first page the incremental loop observes (page 1 of
the feed): the first record of `pre`'s first page when `pre` is non-empty,
otherwise the first record of page `p` itself. -/
def feedHeadId (pre : List FetchR) (pus : List ApiUser) : String :=
  match pre with
  | FetchR.ok (u0 :: _) _ :: _ => u0.user_id
  | _ =>
    match pus with
    | u :: _ => u.user_id
    | [] => ""

theorem incGo_found (okf : Nat → Bool) (cp : String)
    (pre rest : List FetchR) (pus : List ApiUser) (hnp : Bool) (i : Nat)
    (hpre : ∀ r ∈ pre, ∃ us, r = FetchR.ok us true ∧ us ≠ []
        ∧ ∀ u ∈ us, (u.user_id == cp) = false)
    (hfind : findIndexA (fun u => u.user_id == cp) pus = some i) :
    incGo okf cp (pre ++ FetchR.ok pus hnp :: rest) 1 none 0 ⟨[], [], []⟩
      = ((doUpsert okf (pus.take i) pre.length
            ⟨List.range' 1 (pre.length + 1), pageUpserts okf 0 pre, []⟩).1,
         (doUpsert okf (pus.take i) pre.length
            ⟨List.range' 1 (pre.length + 1), pageUpserts okf 0 pre, []⟩).2,
         Except.ok (some (feedHeadId pre pus))) := by
  obtain ⟨p0, ptl, rfl⟩ : ∃ p0 ptl, pus = p0 :: ptl := by
    cases pus with
    | nil => simp [findIndexA] at hfind
    | cons a b => exact ⟨a, b, rfl⟩
  have hr : List.range' 1 pre.length ++ [1 + pre.length] = List.range' 1 (pre.length + 1) := by
    rw [List.range'_concat]
    simp
  have hrun : incGo okf cp (pre ++ FetchR.ok (p0 :: ptl) hnp :: rest) 1 none 0 ⟨[], [], []⟩
      = ((doUpsert okf ((p0 :: ptl).take i) pre.length
            ⟨List.range' 1 (pre.length + 1), pageUpserts okf 0 pre, []⟩).1,
         (doUpsert okf ((p0 :: ptl).take i) pre.length
            ⟨List.range' 1 (pre.length + 1), pageUpserts okf 0 pre, []⟩).2,
         Except.ok (if 1 + pre.length = 1 then some p0.user_id else f1upd pre 1 none)) := by
    rw [incGo_skip okf cp _ pre 1 none 0 ⟨[], [], []⟩ (le_refl 1) hpre]
    simp only [incGo, hfind]
    simp [recFetch, hr]
  have hv : (if 1 + pre.length = 1 then some p0.user_id else f1upd pre 1 none)
      = some (feedHeadId pre (p0 :: ptl)) := by
    cases pre with
    | nil => simp [feedHeadId]
    | cons q pre2 =>
      obtain ⟨us, hq, hne, _⟩ := hpre q (List.mem_cons_self q pre2)
      obtain ⟨u0, utl, rfl⟩ := List.exists_cons_of_ne_nil hne
      subst hq
      have hlen : 1 + (FetchR.ok (u0 :: utl) true :: pre2).length ≠ 1 := by simp
      simp [f1upd, hlen, feedHeadId]
  rw [hrun, hv]

/-- C1: incremental sync with the checkpoint first appearing at index `i` of
page `p` (pages `1 … p-1` being non-empty full pages without the checkpoint,
each reporting a next page): the store upserts are exactly the full contents
of pages `1 … p-1` followed by the records at positions `[0, i)` of page `p`,
and no page after `p` is fetched — the fetch trace is exactly pages `1 … p`,
possibly followed by one re-fetch of page 1.  (The re-fetch happens only
when page 1's head `user_id` is the empty string: the JS truthiness test
`if (!firstUserIdFromPage1)` treats it like a never-assigned checkpoint, so
the code fetches page 1 again and then aborts with
`Could not determine checkpoint`.) -/
theorem C1_incremental_sync :
    ∀ (okf : Nat → Bool) (cp : String) (pre rest : List FetchR) (pus : List ApiUser)
      (hnp : Bool) (i : Nat),
      (∀ r ∈ pre, ∃ us, r = FetchR.ok us true ∧ us ≠ []
          ∧ ∀ u ∈ us, (u.user_id == cp) = false) →
      findIndexA (fun u => u.user_id == cp) pus = some i →
      ((syncUsers okf (pre ++ FetchR.ok pus hnp :: rest) (some cp)).1.upserts.map
            Prod.fst).flatten
          = (pre.map getUsers).flatten ++ pus.take i
      ∧ ((syncUsers okf (pre ++ FetchR.ok pus hnp :: rest) (some cp)).1.fetched
            = List.range' 1 (pre.length + 1)
         ∨ (syncUsers okf (pre ++ FetchR.ok pus hnp :: rest) (some cp)).1.fetched
            = List.range' 1 (pre.length + 1) ++ [1]) := by
  intro okf cp pre rest pus hnp i hpre hfind
  have hrun := incGo_found okf cp pre rest pus hnp i hpre hfind
  have hfetch : (doUpsert okf (pus.take i) pre.length
      ⟨List.range' 1 (pre.length + 1), pageUpserts okf 0 pre, []⟩).1.fetched
      = List.range' 1 (pre.length + 1) := by
    unfold doUpsert
    split <;> rfl
  have hups : (((doUpsert okf (pus.take i) pre.length
      ⟨List.range' 1 (pre.length + 1), pageUpserts okf 0 pre, []⟩).1.upserts).map
        Prod.fst).flatten
      = (pre.map getUsers).flatten ++ pus.take i := by
    unfold doUpsert
    by_cases hT : (pus.take i).length = 0
    · rw [if_pos hT]
      have hTnil : pus.take i = [] := List.length_eq_zero.mp hT
      simp [pageUpserts_map_fst, hTnil]
    · rw [if_neg hT]
      simp [pageUpserts_map_fst]
  by_cases ht : truthy (some (feedHeadId pre pus)) = true
  · simp only [syncUsers, fetchIncrementalPages]
    rw [hrun]
    simp only [ht, if_true]
    constructor
    · simpa using hups
    · left
      simpa using hfetch
  · have htf : truthy (some (feedHeadId pre pus)) = false := by
      simpa using ht
    obtain ⟨p0, ptl, rfl⟩ : ∃ p0 ptl, pus = p0 :: ptl := by
      cases pus with
      | nil => simp [findIndexA] at hfind
      | cons a b => exact ⟨a, b, rfl⟩
    cases pre with
    | nil =>
      have htf2 : truthy (some p0.user_id) = false := by
        simpa [feedHeadId] using htf
      simp only [List.nil_append] at hrun ⊢
      simp only [syncUsers, fetchIncrementalPages]
      rw [hrun]
      simp only [feedHeadId, htf2, if_false, Bool.false_eq_true]
      constructor
      · simp at hups ⊢
        exact hups
      · right
        simp at hfetch
        simp [recFetch, hfetch]
    | cons q pre2 =>
      obtain ⟨us, hq, hne, _⟩ := hpre q (List.mem_cons_self q pre2)
      obtain ⟨u0, utl, rfl⟩ := List.exists_cons_of_ne_nil hne
      subst hq
      have htf2 : truthy (some u0.user_id) = false := by
        simpa [feedHeadId] using htf
      simp only [syncUsers, fetchIncrementalPages]
      rw [hrun]
      simp only [feedHeadId, htf2, if_false, Bool.false_eq_true, List.cons_append]
      constructor
      · simp at hups ⊢
        exact hups
      · right
        simp at hfetch
        simp [recFetch, hfetch]

/-- Second sample user record, for the C1 witness. -/
def uB : ApiUser := ⟨"uB", none, none, none, none, none⟩

/-- Closed witness for `C1_incremental_sync`: one page where the checkpoint
`"uA"` sits at index 1, so only the record before it is upserted and no page
beyond page 1 is fetched. -/
theorem C1_incremental_sync_witness :
    ((syncUsers (fun _ => true) ([] ++ FetchR.ok [uB, uA] false :: [])
          (some "uA")).1.upserts.map Prod.fst).flatten
        = (([] : List FetchR).map getUsers).flatten ++ [uB, uA].take 1
    ∧ ((syncUsers (fun _ => true) ([] ++ FetchR.ok [uB, uA] false :: [])
            (some "uA")).1.fetched
          = List.range' 1 (List.length ([] : List FetchR) + 1)
       ∨ (syncUsers (fun _ => true) ([] ++ FetchR.ok [uB, uA] false :: [])
            (some "uA")).1.fetched
          = List.range' 1 (List.length ([] : List FetchR) + 1) ++ [1]) :=
  C1_incremental_sync (fun _ => true) "uA" [] [] [uB, uA] false 1
    (fun r hr => absurd hr (List.not_mem_nil r)) (by decide)

/-! ## Rate limiter (`sync.js`: `waitForRateLimit`, `recordApiCall`)

Times are milliseconds (naturals).  `waitForRateLimit` prunes timestamps
older than the window from the front of `apiCallTimestamps` (a `while`/`shift`
loop, i.e. `dropWhile`), and when 3 or more remain it sleeps for
`window - (now - oldest) + 100` before pruning again.  `recordApiCall`
appends the completion time of the request.  Calls are sequential: each call
waits (admission), optionally reaches the network (recording one timestamp
at admission time plus the response delay `d2`), and the next call starts
`d1` ms after the previous one finished.  `runCalls` returns the admission
times of the calls that reached the network. -/

def RATE_LIMIT_MAX_REQUESTS : Nat := 3

def RATE_LIMIT_WINDOW_MS : Nat := 10000

/-- The `while … shift()` pruning loop of `waitForRateLimit`. -/
def pruneOld (t : Nat) (l : List Nat) : List Nat :=
  l.dropWhile (fun r => RATE_LIMIT_WINDOW_MS ≤ t - r)

structure RL where
  ts : List Nat
  now : Nat
deriving DecidableEq, Repr

structure CallEv where
  d1 : Nat
  reaches : Bool
  d2 : Nat
deriving DecidableEq, Repr

/-- `waitForRateLimit` at time `t` with timestamp list `l`: the admission
time of the call (after any sleep) and the timestamp list after pruning. -/
def waitAdmit (t : Nat) (l : List Nat) : Nat × List Nat :=
  if RATE_LIMIT_MAX_REQUESTS ≤ (pruneOld t l).length then
    (t + (RATE_LIMIT_WINDOW_MS - (t - (pruneOld t l).headD 0) + 100),
     pruneOld (t + (RATE_LIMIT_WINDOW_MS - (t - (pruneOld t l).headD 0) + 100)) (pruneOld t l))
  else (t, pruneOld t l)

/-- One sequential `fetchUsersPage` call: wait for the limiter, issue the
request at the admission time, and — when the call reaches the network —
record one timestamp when the response arrives `d2` ms later. -/
def stepCall (s : RL) (c : CallEv) : RL × Option Nat :=
  if c.reaches then
    (⟨(waitAdmit (s.now + c.d1) s.ts).2 ++ [(waitAdmit (s.now + c.d1) s.ts).1 + c.d2],
      (waitAdmit (s.now + c.d1) s.ts).1 + c.d2⟩,
     some (waitAdmit (s.now + c.d1) s.ts).1)
  else
    (⟨(waitAdmit (s.now + c.d1) s.ts).2, (waitAdmit (s.now + c.d1) s.ts).1⟩, none)

/-- Admission times of the calls that reached the network. -/
def runCalls : RL → List CallEv → List Nat
  | _, [] => []
  | s, c :: cs =>
    match stepCall s c with
    | (s2, some a) => a :: runCalls s2 cs
    | (s2, none) => runCalls s2 cs

/-- Membership of `a` in the rolling window `[t, t + window)`. -/
def inWin (t a : Nat) : Bool :=
  decide (t ≤ a) && decide (a < t + RATE_LIMIT_WINDOW_MS)

theorem pruneOld_split (t : Nat) (l : List Nat) :
    ∃ d, l = d ++ pruneOld t l ∧ ∀ x ∈ d, x + RATE_LIMIT_WINDOW_MS ≤ t := by
  refine ⟨l.takeWhile (fun r => RATE_LIMIT_WINDOW_MS ≤ t - r),
    (List.takeWhile_append_dropWhile _ _).symm, ?_⟩
  intro x hx
  have hp2 : RATE_LIMIT_WINDOW_MS ≤ t - x := by
    have hp := List.mem_takeWhile_imp hx
    simpa using hp
  have hW : 0 < RATE_LIMIT_WINDOW_MS := by decide
  omega

theorem dropWhile_head_not_nat (p : Nat → Bool) :
    ∀ (l : List Nat) (a : Nat) (as : List Nat), l.dropWhile p = a :: as → p a = false := by
  intro l
  induction l with
  | nil => intro a as h; simp [List.dropWhile] at h
  | cons x xs ih =>
    intro a as h
    rw [List.dropWhile_cons] at h
    by_cases hx : p x = true
    · rw [if_pos hx] at h
      exact ih a as h
    · rw [if_neg hx] at h
      injection h with h1 h2
      subst h1
      simpa using hx

theorem pruneOld_subset (t : Nat) (l : List Nat) : ∀ x ∈ pruneOld t l, x ∈ l :=
  fun _ hx => (List.dropWhile_sublist _).subset hx

theorem pruneOld_length_le (t : Nat) (l : List Nat) :
    (pruneOld t l).length ≤ l.length :=
  (List.dropWhile_sublist _).length_le

theorem waitAdmit_ge (t : Nat) (l : List Nat) : t ≤ (waitAdmit t l).1 := by
  unfold waitAdmit
  split
  · exact Nat.le_add_right _ _
  · exact Nat.le_refl t

theorem waitAdmit_wait_val (t : Nat) (l : List Nat)
    (hle : ∀ x ∈ l, x ≤ t)
    (h3 : RATE_LIMIT_MAX_REQUESTS ≤ (pruneOld t l).length) :
    (waitAdmit t l).1 = (pruneOld t l).headD 0 + RATE_LIMIT_WINDOW_MS + 100 := by
  obtain ⟨a, as, hp⟩ : ∃ a as, pruneOld t l = a :: as := by
    cases hp : pruneOld t l with
    | nil => rw [hp] at h3; simp [RATE_LIMIT_MAX_REQUESTS] at h3
    | cons a as => exact ⟨a, as, rfl⟩
  have hfalse : (fun r => decide (RATE_LIMIT_WINDOW_MS ≤ t - r)) a = false :=
    dropWhile_head_not_nat _ l a as hp
  have hlt : t - a < RATE_LIMIT_WINDOW_MS := by simpa using hfalse
  have hmem : a ∈ l := pruneOld_subset t l a (by rw [hp]; exact List.mem_cons_self a as)
  have hle2 : a ≤ t := hle a hmem
  unfold waitAdmit
  rw [if_pos h3, hp]
  show t + (RATE_LIMIT_WINDOW_MS - (t - (a :: as).headD 0) + 100)
      = (a :: as).headD 0 + RATE_LIMIT_WINDOW_MS + 100
  simp only [List.headD_cons]
  omega

theorem waitAdmit_len2 (t : Nat) (l : List Nat)
    (hle : ∀ x ∈ l, x ≤ t) (hl3 : l.length ≤ 3) :
    (waitAdmit t l).2.length ≤ 2 := by
  by_cases h3 : RATE_LIMIT_MAX_REQUESTS ≤ (pruneOld t l).length
  · obtain ⟨a, as, hp⟩ : ∃ a as, pruneOld t l = a :: as := by
      cases hp : pruneOld t l with
      | nil => rw [hp] at h3; simp [RATE_LIMIT_MAX_REQUESTS] at h3
      | cons a as => exact ⟨a, as, rfl⟩
    have hval : (waitAdmit t l).1 = a + RATE_LIMIT_WINDOW_MS + 100 := by
      rw [waitAdmit_wait_val t l hle h3, hp]
      rfl
    have h1 : (waitAdmit t l).2 = pruneOld (waitAdmit t l).1 (pruneOld t l) := by
      unfold waitAdmit
      rw [if_pos h3]
    have hc : (fun r => decide (RATE_LIMIT_WINDOW_MS ≤ (waitAdmit t l).1 - r)) a = true := by
      simp only [decide_eq_true_eq]
      rw [hval]
      omega
    have hdrop : pruneOld (waitAdmit t l).1 (a :: as)
        = List.dropWhile (fun r => decide (RATE_LIMIT_WINDOW_MS ≤ (waitAdmit t l).1 - r)) as := by
      unfold pruneOld
      rw [List.dropWhile_cons, if_pos hc]
    have hlen : as.length ≤ 2 := by
      have hl := pruneOld_length_le t l
      rw [hp] at hl
      simp at hl
      omega
    rw [h1, hp, hdrop]
    exact le_trans (List.dropWhile_sublist _).length_le hlen
  · have h1 : (waitAdmit t l).2 = pruneOld t l := by
      unfold waitAdmit
      rw [if_neg h3]
    rw [h1]
    simp [RATE_LIMIT_MAX_REQUESTS] at h3
    omega

theorem waitAdmit_split (t : Nat) (l : List Nat) :
    ∃ d, l = d ++ (waitAdmit t l).2
      ∧ ∀ x ∈ d, x + RATE_LIMIT_WINDOW_MS ≤ (waitAdmit t l).1 := by
  obtain ⟨d1, hd1, ho1⟩ := pruneOld_split t l
  by_cases h3 : RATE_LIMIT_MAX_REQUESTS ≤ (pruneOld t l).length
  · obtain ⟨d2, hd2, ho2⟩ := pruneOld_split
      (t + (RATE_LIMIT_WINDOW_MS - (t - (pruneOld t l).headD 0) + 100)) (pruneOld t l)
    have hadm : (waitAdmit t l).1
        = t + (RATE_LIMIT_WINDOW_MS - (t - (pruneOld t l).headD 0) + 100) := by
      unfold waitAdmit
      rw [if_pos h3]
    have h2 : (waitAdmit t l).2
        = pruneOld (t + (RATE_LIMIT_WINDOW_MS - (t - (pruneOld t l).headD 0) + 100))
            (pruneOld t l) := by
      unfold waitAdmit
      rw [if_pos h3]
    refine ⟨d1 ++ d2, ?_, ?_⟩
    · rw [h2, List.append_assoc, ← hd2, ← hd1]
    · intro x hx
      rcases List.mem_append.mp hx with hx1 | hx2
      · have hx1o := ho1 x hx1
        rw [hadm]
        omega
      · have hx2o := ho2 x hx2
        rw [hadm]
        omega
  · have hadm : (waitAdmit t l).1 = t := by
      unfold waitAdmit
      rw [if_neg h3]
    have h2 : (waitAdmit t l).2 = pruneOld t l := by
      unfold waitAdmit
      rw [if_neg h3]
    refine ⟨d1, ?_, ?_⟩
    · rw [h2]
      exact hd1
    · intro x hx
      rw [hadm]
      exact ho1 x hx

theorem waitAdmit_len_le (t : Nat) (l : List Nat) :
    (waitAdmit t l).2.length ≤ l.length := by
  unfold waitAdmit
  split
  · exact le_trans (pruneOld_length_le _ _) (pruneOld_length_le _ _)
  · exact pruneOld_length_le _ _

theorem countP_map_fst_le (P : List (Nat × Nat)) (p q : Nat → Bool)
    (h : ∀ pr ∈ P, p pr.1 = true → q pr.2 = true) :
    (P.map Prod.fst).countP p ≤ (P.map Prod.snd).countP q := by
  induction P with
  | nil => simp
  | cons pr P ih =>
    simp only [List.map_cons, List.countP_cons]
    have hih := ih (fun x hx => h x (List.mem_cons_of_mem _ hx))
    by_cases hp : p pr.1 = true
    · rw [if_pos hp, if_pos (h pr (List.mem_cons_self pr P) hp)]
      omega
    · rw [if_neg hp]
      by_cases hq : q pr.2 = true
      · rw [if_pos hq]; omega
      · rw [if_neg hq]; omega

theorem countP_eq_of_dropped (q : Nat → Bool) (d l : List Nat)
    (h0 : ∀ x ∈ d, q x = false) :
    (d ++ l).countP q = l.countP q := by
  rw [List.countP_append]
  have hz : d.countP q = 0 := by
    rw [List.countP_eq_zero]
    intro x hx
    simp [h0 x hx]
  omega

/-- Invariant tying the limiter state to the ghost history `P` of
(admission time, record time) pairs of the network calls made so far. -/
structure RLInv (s : RL) (P : List (Nat × Nat)) : Prop where
  pair_le : ∀ pr ∈ P, pr.1 ≤ pr.2 ∧ pr.2 ≤ s.now
  split_old : ∃ d, P.map Prod.snd = d ++ s.ts
      ∧ ∀ x ∈ d, x + RATE_LIMIT_WINDOW_MS ≤ s.now
  len3 : s.ts.length ≤ 3
  win3 : ∀ t, (P.map Prod.fst).countP (inWin t) ≤ 3

theorem RLInv.ts_le_now {s : RL} {P : List (Nat × Nat)} (h : RLInv s P) :
    ∀ x ∈ s.ts, x ≤ s.now := by
  intro x hx
  obtain ⟨d, hd, _⟩ := h.split_old
  have hx2 : x ∈ P.map Prod.snd := by
    rw [hd]
    exact List.mem_append_right d hx
  obtain ⟨pr, hpr, hpe⟩ := List.mem_map.mp hx2
  rw [← hpe]
  exact (h.pair_le pr hpr).2

theorem stepInv_net (s : RL) (P : List (Nat × Nat)) (d1 d2 a : Nat) (nts : List Nat)
    (hwa : waitAdmit (s.now + d1) s.ts = (a, nts)) (h : RLInv s P) :
    RLInv ⟨nts ++ [a + d2], a + d2⟩ (P ++ [(a, a + d2)]) := by
  have hts_le : ∀ x ∈ s.ts, x ≤ s.now + d1 :=
    fun x hx => le_trans (h.ts_le_now x hx) (Nat.le_add_right _ _)
  have ha_ge : s.now + d1 ≤ a := by
    have hh := waitAdmit_ge (s.now + d1) s.ts
    rw [hwa] at hh
    exact hh
  have hnow_le_a : s.now ≤ a := le_trans (Nat.le_add_right _ _) ha_ge
  have hlen2 : nts.length ≤ 2 := by
    have hh := waitAdmit_len2 (s.now + d1) s.ts hts_le h.len3
    rw [hwa] at hh
    exact hh
  obtain ⟨dO, hdO, hoO⟩ := h.split_old
  obtain ⟨dw, hdw0, how0⟩ := waitAdmit_split (s.now + d1) s.ts
  rw [hwa] at hdw0 how0
  have hdw : s.ts = dw ++ nts := hdw0
  have how : ∀ x ∈ dw, x + RATE_LIMIT_WINDOW_MS ≤ a := how0
  refine ⟨?_, ?_, ?_, ?_⟩
  · intro pr hpr
    rcases List.mem_append.mp hpr with hold | hnew
    · have h1 := h.pair_le pr hold
      exact ⟨h1.1, le_trans h1.2 (le_trans hnow_le_a (Nat.le_add_right _ _))⟩
    · have hpe : pr = (a, a + d2) := by simpa using hnew
      subst hpe
      exact ⟨Nat.le_add_right _ _, le_refl _⟩
  · refine ⟨dO ++ dw, ?_, ?_⟩
    · show (P ++ [(a, a + d2)]).map Prod.snd = (dO ++ dw) ++ (nts ++ [a + d2])
      rw [List.map_append, hdO, hdw]
      simp [List.append_assoc]
    · intro x hx
      rcases List.mem_append.mp hx with hx1 | hx2
      · have hxo := hoO x hx1
        show x + RATE_LIMIT_WINDOW_MS ≤ a + d2
        omega
      · have hxo := how x hx2
        show x + RATE_LIMIT_WINDOW_MS ≤ a + d2
        omega
  · show (nts ++ [a + d2]).length ≤ 3
    rw [List.length_append]
    simp only [List.length_cons, List.length_nil]
    omega
  · intro t
    show ((P ++ [(a, a + d2)]).map Prod.fst).countP (inWin t) ≤ 3
    rw [List.map_append, List.countP_append]
    simp only [List.map_cons, List.map_nil, List.countP_cons, List.countP_nil]
    by_cases hw : inWin t a = true
    · have hta : t ≤ a ∧ a < t + RATE_LIMIT_WINDOW_MS := by
        simpa [inWin] using hw
      have step1 : (P.map Prod.fst).countP (inWin t)
          ≤ (P.map Prod.snd).countP (fun x => decide (t ≤ x)) := by
        apply countP_map_fst_le
        intro pr hpr hp1
        have hle1 := (h.pair_le pr hpr).1
        have ht1 : t ≤ pr.1 := by
          have hp2 : t ≤ pr.1 ∧ pr.1 < t + RATE_LIMIT_WINDOW_MS := by
            simpa [inWin] using hp1
          exact hp2.1
        simp only [decide_eq_true_eq]
        omega
      have step2 : (P.map Prod.snd).countP (fun x => decide (t ≤ x))
          = s.ts.countP (fun x => decide (t ≤ x)) := by
        rw [hdO]
        apply countP_eq_of_dropped
        intro x hx
        have hxo := hoO x hx
        simp only [decide_eq_false_iff_not]
        omega
      have step3 : s.ts.countP (fun x => decide (t ≤ x))
          = nts.countP (fun x => decide (t ≤ x)) := by
        rw [hdw]
        apply countP_eq_of_dropped
        intro x hx
        have hxo := how x hx
        simp only [decide_eq_false_iff_not]
        omega
      have step4 : nts.countP (fun x => decide (t ≤ x)) ≤ 2 :=
        le_trans (List.countP_le_length _) hlen2
      rw [if_pos hw]
      omega
    · rw [if_neg hw]
      have hold := h.win3 t
      omega

theorem stepInv_loc (s : RL) (P : List (Nat × Nat)) (d1 a : Nat) (nts : List Nat)
    (hwa : waitAdmit (s.now + d1) s.ts = (a, nts)) (h : RLInv s P) :
    RLInv ⟨nts, a⟩ P := by
  have hnow_le_a : s.now ≤ a := by
    have hh := le_trans (Nat.le_add_right s.now d1) (waitAdmit_ge (s.now + d1) s.ts)
    rw [hwa] at hh
    exact hh
  obtain ⟨dO, hdO, hoO⟩ := h.split_old
  obtain ⟨dw, hdw0, how0⟩ := waitAdmit_split (s.now + d1) s.ts
  rw [hwa] at hdw0 how0
  have hdw : s.ts = dw ++ nts := hdw0
  have how : ∀ x ∈ dw, x + RATE_LIMIT_WINDOW_MS ≤ a := how0
  have hlen : nts.length ≤ 3 := by
    have hh := waitAdmit_len_le (s.now + d1) s.ts
    rw [hwa] at hh
    exact le_trans hh h.len3
  refine ⟨?_, ?_, ?_, ?_⟩
  · intro pr hpr
    exact ⟨(h.pair_le pr hpr).1, le_trans (h.pair_le pr hpr).2 hnow_le_a⟩
  · refine ⟨dO ++ dw, ?_, ?_⟩
    · show P.map Prod.snd = (dO ++ dw) ++ nts
      rw [hdO, hdw, List.append_assoc]
    · intro x hx
      rcases List.mem_append.mp hx with hx1 | hx2
      · have hxo := hoO x hx1
        show x + RATE_LIMIT_WINDOW_MS ≤ a
        omega
      · exact how x hx2
  · exact hlen
  · exact h.win3

theorem runCalls_win_aux (cs : List CallEv) :
    ∀ (s : RL) (P : List (Nat × Nat)), RLInv s P →
      ∀ t, ((P.map Prod.fst) ++ runCalls s cs).countP (inWin t) ≤ 3 := by
  induction cs with
  | nil =>
    intro s P h t
    simpa using h.win3 t
  | cons c cs ih =>
    intro s P h t
    obtain ⟨d1, reaches, d2⟩ := c
    cases reaches with
    | true =>
      have hrec := ih _ _
        (stepInv_net s P d1 d2 (waitAdmit (s.now + d1) s.ts).1
          (waitAdmit (s.now + d1) s.ts).2 rfl h) t
      rw [show runCalls s (⟨d1, true, d2⟩ :: cs)
          = (waitAdmit (s.now + d1) s.ts).1 ::
              runCalls ⟨(waitAdmit (s.now + d1) s.ts).2
                  ++ [(waitAdmit (s.now + d1) s.ts).1 + d2],
                (waitAdmit (s.now + d1) s.ts).1 + d2⟩ cs from rfl]
      rw [List.map_append] at hrec
      simpa [List.append_assoc] using hrec
    | false =>
      have hrec := ih _ _
        (stepInv_loc s P d1 (waitAdmit (s.now + d1) s.ts).1
          (waitAdmit (s.now + d1) s.ts).2 rfl h) t
      rw [show runCalls s (⟨d1, false, d2⟩ :: cs)
          = runCalls ⟨(waitAdmit (s.now + d1) s.ts).2,
              (waitAdmit (s.now + d1) s.ts).1⟩ cs from rfl]
      exact hrec

/-- C3: for every sequence of sequential `fetchUsersPage` calls sharing the
rate-limiter state, no rolling 10000 ms window contains more than 3 calls
admitted to the network; and a call whose admission would exceed the limit
is suspended until the oldest recorded timestamp falls outside the window
plus a 100 ms buffer (admission time = oldest + window + buffer). -/
theorem C3_rate_limiter :
    (∀ (t0 : Nat) (cs : List CallEv) (t : Nat),
        (runCalls ⟨[], t0⟩ cs).countP (inWin t) ≤ 3)
    ∧ (∀ (t : Nat) (l : List Nat), (∀ x ∈ l, x ≤ t) →
        RATE_LIMIT_MAX_REQUESTS ≤ (pruneOld t l).length →
        (waitAdmit t l).1
          = (pruneOld t l).headD 0 + RATE_LIMIT_WINDOW_MS + 100) := by
  constructor
  · intro t0 cs t
    have hinv : RLInv ⟨[], t0⟩ [] := by
      refine ⟨?_, ⟨[], rfl, ?_⟩, ?_, ?_⟩
      · intro pr hpr; simp at hpr
      · intro x hx; simp at hx
      · simp
      · intro t2; simp
    simpa using runCalls_win_aux cs ⟨[], t0⟩ [] hinv t
  · exact waitAdmit_wait_val

/-- Closed witness for `C3_rate_limiter`: four back-to-back instantaneous
network calls stay within the limit, and the wait computation with three
fresh timestamps resumes at oldest + window + buffer. -/
theorem C3_rate_limiter_witness :
    (runCalls ⟨[], 0⟩ [⟨0, true, 0⟩, ⟨0, true, 0⟩, ⟨0, true, 0⟩, ⟨0, true, 0⟩]).countP
        (inWin 0) ≤ 3
    ∧ (waitAdmit 5 [0, 1, 2]).1
        = (pruneOld 5 [0, 1, 2]).headD 0 + RATE_LIMIT_WINDOW_MS + 100 :=
  ⟨C3_rate_limiter.1 0 _ 0,
   C3_rate_limiter.2 5 [0, 1, 2] (by decide) (by decide)⟩

end Avici
